import Mathlib

/-!
Verification of the BrainPy tutorial material: model persistence
(`save_states` / `load_states`), JIT compilation of `gelu`, gradients of
`TrainVar` parameters, in-place `Variable` updates, the `Dropout` layer and
`MatConn` weight-vector extraction.

The repository excerpt consists of tutorial notebooks; the implementations of
the persistence, autograd, JIT and connection machinery live outside the
excerpt.  Those parts are modelled from the specification's words (each such
definition carries a doc comment starting `Modelled from the spec:`), while
functions whose code appears in the notebooks (`gelu`, `Dropout.update`, the
concrete examples) are translated directly.
-/

namespace BrainPy

/-- Supported serialization schemes of `save_states` / `load_states`. -/
inductive FileFormat : Type where
  | hdf5
  | npz
  | pickle
  | matlab
deriving DecidableEq, Repr

/-- A file name, modelled as its list of characters. -/
abbrev FileName := List Char

/-- The extension `.h5`. -/
def extH5 : FileName := ['.', 'h', '5']

/-- The extension `.hdf5`. -/
def extHDF5 : FileName := ['.', 'h', 'd', 'f', '5']

/-- The extension `.npz`. -/
def extNPZ : FileName := ['.', 'n', 'p', 'z']

/-- The extension `.pkl`. -/
def extPKL : FileName := ['.', 'p', 'k', 'l']

/-- The extension `.mat`. -/
def extMAT : FileName := ['.', 'm', 'a', 't']

/-- Modelled from the spec: `save_states` / `load_states` select the
serialization scheme from the file name given as their first argument; the
supported formats are HDF5 (`.h5`, `.hdf5`), NumPy `.npz`, pickle `.pkl` and
Matlab `.mat`.  An unsupported extension selects no format. -/
def selectFormat (filename : FileName) : Option FileFormat :=
  if extH5.isSuffixOf filename then some .hdf5
  else if extHDF5.isSuffixOf filename then some .hdf5
  else if extNPZ.isSuffixOf filename then some .npz
  else if extPKL.isSuffixOf filename then some .pickle
  else if extMAT.isSuffixOf filename then some .matlab
  else none

/-- A model's named variables: an association list from dotted relative-path
names to array data (keys are unique in an actual model). -/
abbrev Store (α : Type) := List (String × α)

/-- A persisted file: a keyed blob (name → array) in one of the supported
formats. -/
structure SavedFile (α : Type) where
  format : FileFormat
  entries : Store α

/-- Modelled from the spec: `save_states` (implementation not part of the
excerpt) serializes the model's named variable arrays to the file as a keyed
blob (name → array), in the format selected from the file name; it fails only
when the extension is unsupported. -/
def save_states {α : Type} (filename : FileName) (model : Store α) :
    Option (SavedFile α) :=
  (selectFormat filename).map (fun fmt => ⟨fmt, model⟩)

/-- Whether the model has a variable named `k`. -/
def hasVar {α : Type} (model : Store α) (k : String) : Bool :=
  model.any (fun p => p.1 == k)

/-- Assign array `v` to the model's variable named `k` (all other variables
keep their values). -/
def setVar {α : Type} (model : Store α) (k : String) (v : α) : Store α :=
  model.map (fun p => if p.1 == k then (k, v) else p)

/-- The names of the model's variables that are absent from the file. -/
def missingNames {α : Type} (model : Store α) (file : SavedFile α) :
    List String :=
  (model.map Prod.fst).filter (fun k => !(file.entries.any (fun e => e.1 == k)))

/-- Result of `load_states`: the updated model, the per-key progress log, and
the warning (the list of missing variable names), when one was issued. -/
structure LoadResult (α : Type) where
  model : Store α
  logs : List String
  warning : Option (List String)

/-- Modelled from the spec: `load_states` (implementation not part of the
excerpt) assigns to each model variable the array stored in the file under the
same key; with `verbose` it logs one message per loaded key, and with
`check_missing` it warns about the variable names expected by the model but
absent from the file.  It never fails: missing names produce only a warning. -/
def load_states {α : Type} (file : SavedFile α) (model : Store α)
    (verbose check_missing : Bool) : LoadResult α :=
  let present := file.entries.filter (fun e => hasVar model e.1)
  let newModel := present.foldl (fun m e => setVar m e.1 e.2) model
  let logs :=
    if verbose then present.map (fun e => "Loading " ++ e.1 ++ " ...") else []
  let missing := missingNames model file
  let warning :=
    if check_missing then
      (if missing.isEmpty then none else some missing)
    else none
  ⟨newModel, logs, warning⟩

/-! Helper lemmas about `setVar`, `hasVar` and loading. -/

theorem fst_setVar_fun {α : Type} (k : String) (v : α) (p : String × α) :
    ((if p.1 == k then (k, v) else p) : String × α).1 = p.1 := by
  by_cases h : p.1 == k
  · simp only [h, if_pos]
    exact (eq_of_beq h).symm
  · simp [h]

theorem keys_setVar {α : Type} (m : Store α) (k : String) (v : α) :
    (setVar m k v).map Prod.fst = m.map Prod.fst := by
  unfold setVar
  rw [List.map_map]
  exact List.map_congr_left (fun p _ => fst_setVar_fun k v p)

theorem hasVar_iff_mem_keys {α : Type} (m : Store α) (k : String) :
    hasVar m k = true ↔ k ∈ m.map Prod.fst := by
  unfold hasVar
  rw [List.any_eq_true]
  constructor
  · rintro ⟨p, hp, hbeq⟩
    exact List.mem_map.mpr ⟨p, hp, eq_of_beq hbeq⟩
  · intro h
    obtain ⟨p, hp, hpk⟩ := List.mem_map.mp h
    exact ⟨p, hp, beq_iff_eq.mpr hpk⟩

theorem hasVar_setVar {α : Type} (m : Store α) (k k' : String) (v : α) :
    hasVar (setVar m k v) k' = hasVar m k' := by
  refine Bool.eq_iff_iff.mpr ?_
  rw [hasVar_iff_mem_keys, hasVar_iff_mem_keys, keys_setVar]

theorem setVar_of_absent {α : Type} (m : Store α) (k : String) (v : α)
    (h : ∀ q ∈ m, q.1 ≠ k) : setVar m k v = m := by
  unfold setVar
  have hpt : ∀ p ∈ m, (if p.1 == k then (k, v) else p) = id p := by
    intro p hp
    simp [beq_eq_false_iff_ne.mpr (h p hp)]
  rw [List.map_congr_left hpt, List.map_id]

theorem setVar_mem_self {α : Type} {m : Store α} {k : String} {v : α}
    (hnodup : (m.map Prod.fst).Nodup) (hmem : (k, v) ∈ m) :
    setVar m k v = m := by
  induction m with
  | nil => rfl
  | cons p rest ih =>
    rw [List.map_cons, List.nodup_cons] at hnodup
    obtain ⟨hp, hrest⟩ := hnodup
    rcases List.mem_cons.mp hmem with hhead | htail
    · subst hhead
      have h1 : setVar ((k, v) :: rest) k v
          = (k, v) :: setVar rest k v := by
        simp [setVar]
      rw [h1]
      have h2 : setVar rest k v = rest := by
        apply setVar_of_absent
        intro q hq hqk
        exact hp (hqk ▸ List.mem_map.mpr ⟨q, hq, rfl⟩)
      rw [h2]
    · have hk : k ∈ rest.map Prod.fst := List.mem_map.mpr ⟨(k, v), htail, rfl⟩
      have hpk : p.1 ≠ k := fun h => hp (h ▸ hk)
      have hcond : (p.1 == k) = false := beq_eq_false_iff_ne.mpr hpk
      have h1 : setVar (p :: rest) k v = p :: setVar rest k v := by
        unfold setVar
        rw [List.map_cons, hcond, if_neg Bool.false_ne_true]
      rw [h1, ih hrest htail]

theorem foldl_fixed {α β : Type} (f : β → α → β) (b : β) (l : List α)
    (h : ∀ x ∈ l, f b x = b) : l.foldl f b = b := by
  induction l with
  | nil => rfl
  | cons x rest ih =>
    rw [List.foldl_cons, h x (List.mem_cons_self x rest)]
    exact ih (fun y hy => h y (List.mem_cons_of_mem x hy))

theorem lookup_setVar_self {α : Type} {m : Store α} {k : String} (v : α)
    (h : hasVar m k = true) : List.lookup k (setVar m k v) = some v := by
  induction m with
  | nil => simp [hasVar] at h
  | cons p rest ih =>
    by_cases hpk : p.1 == k
    · have h1 : setVar (p :: rest) k v = (k, v) :: setVar rest k v := by
        unfold setVar
        rw [List.map_cons, if_pos hpk]
      rw [h1, List.lookup_cons, beq_self_eq_true]
    · have hcond : (p.1 == k) = false := by
        exact Bool.not_eq_true _ ▸ Bool.of_not_eq_true hpk
      have h1 : setVar (p :: rest) k v = p :: setVar rest k v := by
        unfold setVar
        rw [List.map_cons, hcond, if_neg Bool.false_ne_true]
      have hk : (k == p.1) = false := by
        refine beq_eq_false_iff_ne.mpr (fun hkp => ?_)
        exact (beq_eq_false_iff_ne.mp hcond) hkp.symm
      have hrest : hasVar rest k = true := by
        unfold hasVar at h
        rw [List.any_cons, hcond, Bool.false_or] at h
        exact h
      have h2 : (p.1, p.2) = p := rfl
      rw [h1, ← h2, List.lookup_cons, hk]
      exact ih hrest

theorem lookup_setVar_ne {α : Type} (m : Store α) {k k' : String} (v : α)
    (h : k' ≠ k) : List.lookup k' (setVar m k v) = List.lookup k' m := by
  induction m with
  | nil => rfl
  | cons p rest ih =>
    by_cases hpk : p.1 == k
    · have hpk' : p.1 = k := eq_of_beq hpk
      have h1 : setVar (p :: rest) k v = (k, v) :: setVar rest k v := by
        unfold setVar
        rw [List.map_cons, if_pos hpk]
      have hk1 : (k' == k) = false := beq_eq_false_iff_ne.mpr h
      have hk2 : (k' == p.1) = false := beq_eq_false_iff_ne.mpr (hpk' ▸ h)
      have h2 : (p.1, p.2) = p := rfl
      rw [h1, List.lookup_cons, hk1, ← h2, List.lookup_cons, hk2]
      exact ih
    · have hcond : (p.1 == k) = false := by
        exact Bool.not_eq_true _ ▸ Bool.of_not_eq_true hpk
      have h1 : setVar (p :: rest) k v = p :: setVar rest k v := by
        unfold setVar
        rw [List.map_cons, hcond, if_neg Bool.false_ne_true]
      have h2 : (p.1, p.2) = p := rfl
      rw [h1, ← h2, List.lookup_cons, List.lookup_cons]
      cases hk : (k' == p.1) with
      | true => rfl
      | false => exact ih

theorem hasVar_of_mem {α : Type} {m : Store α} {e : String × α}
    (he : e ∈ m) : hasVar m e.1 = true := by
  unfold hasVar
  exact List.any_eq_true.mpr ⟨e, he, beq_self_eq_true e.1⟩

theorem load_filter_eq_self {α : Type} (m : Store α) :
    m.filter (fun e => hasVar m e.1) = m :=
  List.filter_eq_self.mpr (fun _e he => hasVar_of_mem he)

/-- C1: for every model and every supported file format, saving the model's
named variable arrays with `save_states` and then loading the same file with
`load_states` yields numerically identical arrays for every key present both
in the model and in the file (the whole model is left unchanged). -/
theorem save_load_roundtrip {α : Type} (model : Store α) (filename : FileName)
    (file : SavedFile α) (verbose check_missing : Bool)
    (hnodup : (model.map Prod.fst).Nodup)
    (hsave : save_states filename model = some file) :
    (load_states file model verbose check_missing).model = model ∧
    ∀ k, hasVar model k = true →
      List.lookup k (load_states file model verbose check_missing).model
        = List.lookup k model := by
  have hentries : file.entries = model := by
    unfold save_states at hsave
    cases hsel : selectFormat filename with
    | none => rw [hsel] at hsave; simp at hsave
    | some fmt =>
      rw [hsel, Option.map_some'] at hsave
      cases Option.some_inj.mp hsave
      rfl
  have hmodel : (load_states file model verbose check_missing).model = model := by
    unfold load_states
    rw [hentries, load_filter_eq_self]
    exact foldl_fixed _ _ _ (fun e he =>
      setVar_mem_self hnodup ((Prod.mk.eta (p := e)).symm ▸ he))
  exact ⟨hmodel, fun k _ => by rw [hmodel]⟩

/-- Concrete model used by the witnesses: two named arrays. -/
def sampleModel : Store (List ℤ) := [("E.V", [1, 2]), ("E.spike", [0])]

/-- The file name `net.h5` from the notebook. -/
def sampleH5Name : FileName := ['n', 'e', 't', '.', 'h', '5']

theorem save_load_roundtrip_witness :
    ((sampleModel.map Prod.fst).Nodup ∧
      save_states sampleH5Name sampleModel
        = some ⟨FileFormat.hdf5, sampleModel⟩) ∧
    (load_states ⟨FileFormat.hdf5, sampleModel⟩ sampleModel true true).model
      = sampleModel :=
  ⟨⟨by decide, by rfl⟩,
    (save_load_roundtrip sampleModel sampleH5Name
      ⟨FileFormat.hdf5, sampleModel⟩ true true (by decide) (by rfl)).1⟩

theorem keys_foldl_setVar {α : Type} (l : List (String × α)) :
    ∀ m : Store α,
      ((l.foldl (fun m e => setVar m e.1 e.2) m).map Prod.fst)
        = m.map Prod.fst := by
  induction l with
  | nil => intro m; rfl
  | cons e rest ih =>
    intro m
    rw [List.foldl_cons, ih, keys_setVar]

theorem lookup_foldl_absent {α : Type} (l : List (String × α)) :
    ∀ (m : Store α) (k : String), (∀ e ∈ l, e.1 ≠ k) →
      List.lookup k (l.foldl (fun m e => setVar m e.1 e.2) m)
        = List.lookup k m := by
  induction l with
  | nil => intro m k _; rfl
  | cons e rest ih =>
    intro m k h
    rw [List.foldl_cons, ih _ k (fun x hx => h x (List.mem_cons_of_mem e hx)),
      lookup_setVar_ne _ _ (fun hk => h e (List.mem_cons_self e rest) hk.symm)]

theorem lookup_foldl_setVar {α : Type} (l : List (String × α)) :
    ∀ m : Store α, (l.map Prod.fst).Nodup →
      (∀ e ∈ l, hasVar m e.1 = true) →
      ∀ e ∈ l,
        List.lookup e.1 (l.foldl (fun m e => setVar m e.1 e.2) m) = some e.2 := by
  induction l with
  | nil => intro _ _ _ e he; exact absurd he (List.not_mem_nil e)
  | cons x rest ih =>
    intro m hnodup hin e he
    rw [List.map_cons, List.nodup_cons] at hnodup
    obtain ⟨hx, hrest⟩ := hnodup
    rw [List.foldl_cons]
    rcases List.mem_cons.mp he with hhead | htail
    · subst hhead
      rw [lookup_foldl_absent rest _ e.1
        (fun q hq hq1 => hx (hq1 ▸ List.mem_map.mpr ⟨q, hq, rfl⟩))]
      exact lookup_setVar_self e.2 (hin e (List.mem_cons_self e rest))
    · refine ih (setVar m x.1 x.2) hrest ?_ e htail
      intro q hq
      rw [hasVar_setVar]
      exact hin q (List.mem_cons_of_mem x hq)

/-- C2: when some variable names expected by the model are absent from the
persisted file, `load_states` with `check_missing` enabled issues a warning
listing exactly the missing variable names, loads every key present in the
file, and does not fail (the model keeps all its variables). -/
theorem load_check_missing_warns {α : Type} (model : Store α)
    (file : SavedFile α) (verbose : Bool)
    (hsub : ∀ e ∈ file.entries, hasVar model e.1 = true)
    (hfnodup : (file.entries.map Prod.fst).Nodup)
    (hmiss : missingNames model file ≠ []) :
    (load_states file model verbose true).warning
      = some (missingNames model file) ∧
    (∀ k, k ∈ missingNames model file ↔
      (hasVar model k = true ∧ file.entries.any (fun e => e.1 == k) = false)) ∧
    (∀ e ∈ file.entries,
      List.lookup e.1 (load_states file model verbose true).model = some e.2) ∧
    (load_states file model verbose true).model.map Prod.fst
      = model.map Prod.fst := by
  have hfilter : file.entries.filter (fun e => hasVar model e.1)
      = file.entries := List.filter_eq_self.mpr hsub
  refine ⟨?_, ?_, ?_, ?_⟩
  · have h1 : (missingNames model file).isEmpty = false :=
      List.isEmpty_eq_false.mpr hmiss
    unfold load_states
    dsimp only
    rw [if_pos rfl, h1, if_neg Bool.false_ne_true]
  · intro k
    unfold missingNames
    rw [List.mem_filter, hasVar_iff_mem_keys]
    constructor
    · rintro ⟨hmem, hany⟩
      exact ⟨hmem, Bool.not_eq_true' .. ▸ hany⟩
    · rintro ⟨hmem, hany⟩
      exact ⟨hmem, (Bool.not_eq_true' ..).mpr hany⟩
  · intro e he
    show List.lookup e.1
      ((file.entries.filter (fun e => hasVar model e.1)).foldl
        (fun m e => setVar m e.1 e.2) model) = some e.2
    rw [hfilter]
    exact lookup_foldl_setVar file.entries model hfnodup hsub e he
  · show ((file.entries.filter (fun e => hasVar model e.1)).foldl
        (fun m e => setVar m e.1 e.2) model).map Prod.fst = model.map Prod.fst
    rw [hfilter, keys_foldl_setVar]

/-- Concrete persisted file used by the C2 witness: it lacks the model's
variable `E.spike`. -/
def samplePartialFile : SavedFile (List ℤ) := ⟨FileFormat.npz, [("E.V", [5, 6])]⟩

theorem load_check_missing_warns_witness :
    ((∀ e ∈ samplePartialFile.entries, hasVar sampleModel e.1 = true) ∧
      (samplePartialFile.entries.map Prod.fst).Nodup ∧
      missingNames sampleModel samplePartialFile ≠ []) ∧
    (load_states samplePartialFile sampleModel false true).warning
      = some (missingNames sampleModel samplePartialFile) :=
  ⟨⟨by decide, by decide, by decide⟩,
    (load_check_missing_warns sampleModel samplePartialFile false
      (by decide) (by decide) (by decide)).1⟩

/-- C4: with `verbose` set, `load_states` logs one message per key present in
both the file and the model; with `verbose` false, no per-key progress is
reported. -/
theorem load_verbose_logs {α : Type} (file : SavedFile α) (model : Store α)
    (check_missing : Bool) :
    (load_states file model true check_missing).logs
      = (file.entries.filter (fun e => hasVar model e.1)).map
          (fun e => "Loading " ++ e.1 ++ " ...") ∧
    (load_states file model true check_missing).logs.length
      = (file.entries.filter (fun e => hasVar model e.1)).length ∧
    (load_states file model false check_missing).logs = [] := by
  refine ⟨rfl, ?_, rfl⟩
  show (List.map (fun e => "Loading " ++ e.1 ++ " ...")
    (file.entries.filter (fun e => hasVar model e.1))).length = _
  rw [List.length_map]

theorem if_bool_false {β : Type} {b : Bool} (h : b = false) (x y : β) :
    (if b then x else y) = y := by
  rw [h]
  exact if_neg Bool.false_ne_true

theorem if_bool_true {β : Type} {b : Bool} (h : b = true) (x y : β) :
    (if b then x else y) = x := by
  rw [h]
  exact if_pos rfl

theorem suffix_excl {a b : List Char} (hab : ¬ a <:+ b) (hba : ¬ b <:+ a)
    {n : List Char} (h : a.isSuffixOf n = true) : b.isSuffixOf n = false := by
  rw [← Bool.not_eq_true]
  intro hb
  rcases List.suffix_or_suffix_of_suffix (List.isSuffixOf_iff_suffix.mp h)
    (List.isSuffixOf_iff_suffix.mp hb) with h1 | h1
  · exact hab h1
  · exact hba h1

/-- C8: `save_states` / `load_states` accept exactly the formats HDF5
(`.h5`, `.hdf5`), NumPy `.npz`, pickle `.pkl` and Matlab `.mat`, selecting the
serialization scheme from the file name given as their first argument. -/
theorem formats_accepted (name : FileName) :
    ((selectFormat name).isSome
      = (extH5.isSuffixOf name || extHDF5.isSuffixOf name
          || extNPZ.isSuffixOf name || extPKL.isSuffixOf name
          || extMAT.isSuffixOf name)) ∧
    (extH5.isSuffixOf name = true → selectFormat name = some .hdf5) ∧
    (extHDF5.isSuffixOf name = true → selectFormat name = some .hdf5) ∧
    (extNPZ.isSuffixOf name = true → selectFormat name = some .npz) ∧
    (extPKL.isSuffixOf name = true → selectFormat name = some .pickle) ∧
    (extMAT.isSuffixOf name = true → selectFormat name = some .matlab) ∧
    (∀ model : Store (List ℤ),
      (save_states name model).isSome = (selectFormat name).isSome) := by
  refine ⟨?_, ?_, ?_, ?_, ?_, ?_, ?_⟩
  · unfold selectFormat
    cases h1 : extH5.isSuffixOf name <;>
    cases h2 : extHDF5.isSuffixOf name <;>
    cases h3 : extNPZ.isSuffixOf name <;>
    cases h4 : extPKL.isSuffixOf name <;>
    cases h5 : extMAT.isSuffixOf name <;>
    simp
  · intro h
    unfold selectFormat
    rw [if_bool_true h]
  · intro h
    unfold selectFormat
    rw [if_bool_false (suffix_excl (by decide) (by decide) h),
      if_bool_true h]
  · intro h
    unfold selectFormat
    rw [if_bool_false (suffix_excl (by decide) (by decide) h),
      if_bool_false (suffix_excl (by decide) (by decide) h),
      if_bool_true h]
  · intro h
    unfold selectFormat
    rw [if_bool_false (suffix_excl (by decide) (by decide) h),
      if_bool_false (suffix_excl (by decide) (by decide) h),
      if_bool_false (suffix_excl (by decide) (by decide) h),
      if_bool_true h]
  · intro h
    unfold selectFormat
    rw [if_bool_false (suffix_excl (by decide) (by decide) h),
      if_bool_false (suffix_excl (by decide) (by decide) h),
      if_bool_false (suffix_excl (by decide) (by decide) h),
      if_bool_false (suffix_excl (by decide) (by decide) h),
      if_bool_true h]
  · intro model
    unfold save_states
    cases selectFormat name <;> rfl

theorem formats_accepted_witness :
    (extH5.isSuffixOf sampleH5Name = true) ∧
    selectFormat sampleH5Name = some FileFormat.hdf5 :=
  ⟨by decide, (formats_accepted sampleH5Name).2.1 (by decide)⟩

mutual

/-- Modelled from the spec: a `Base` object registers named variable arrays
(abstracted here by a numeric array id) and named sub-objects, which are
traversed to collect all variables by relative path. -/
inductive Obj : Type where
  | mk : List (String × Nat) → SubList → Obj

/-- The named sub-objects of a `Base` object. -/
inductive SubList : Type where
  | nil : SubList
  | cons : String → Obj → SubList → SubList

end

mutual

/-- Modelled from the spec: collect every variable of the object together with
its relative path of nested attribute names. -/
def collectObj : Obj → List (List String × Nat)
  | .mk vs subs => vs.map (fun v => ([v.1], v.2)) ++ collectSubs subs

/-- Collect the variables of each named sub-object, prefixing the sub-object's
attribute name to the relative path. -/
def collectSubs : SubList → List (List String × Nat)
  | .nil => []
  | .cons name o rest =>
      (collectObj o).map (fun kv => (name :: kv.1, kv.2)) ++ collectSubs rest

end

/-- The dot separator of relative-path keys. -/
def dotSep : String := "."

/-- Modelled from the spec: `save_states` stores each variable array under the
dotted join of its relative path of attribute names. -/
def saveKeys (o : Obj) : Store Nat :=
  (collectObj o).map (fun kv => (String.intercalate dotSep kv.1, kv.2))

mutual

/-- The relative attribute path `p` reaches, in the given object, a variable
holding array `a`. -/
inductive PathV : Obj → List String → Nat → Prop where
  | var {vs : List (String × Nat)} {subs : SubList} {name : String} {a : Nat} :
      (name, a) ∈ vs → PathV (.mk vs subs) [name] a
  | sub {vs : List (String × Nat)} {subs : SubList} {p : List String} {a : Nat} :
      PathS subs p a → PathV (.mk vs subs) p a

/-- Path lookup among a list of named sub-objects. -/
inductive PathS : SubList → List String → Nat → Prop where
  | head {name : String} {o : Obj} {rest : SubList} {p : List String} {a : Nat} :
      PathV o p a → PathS (.cons name o rest) (name :: p) a
  | tail {name : String} {o : Obj} {rest : SubList} {p : List String} {a : Nat} :
      PathS rest p a → PathS (.cons name o rest) p a

end

mutual

theorem mem_collectObj : ∀ (o : Obj) (p : List String) (a : Nat),
    (p, a) ∈ collectObj o ↔ PathV o p a
  | .mk vs subs, p, a => by
    simp only [collectObj]
    rw [List.mem_append]
    constructor
    · rintro (hl | hr)
      · obtain ⟨v, hv, heq⟩ := List.mem_map.mp hl
        cases heq
        exact PathV.var (by simpa using hv)
      · exact PathV.sub ((mem_collectSubs subs p a).mp hr)
    · intro h
      cases h with
      | var hmem => exact Or.inl (List.mem_map.mpr ⟨_, hmem, rfl⟩)
      | sub hps => exact Or.inr ((mem_collectSubs subs p a).mpr hps)

theorem mem_collectSubs : ∀ (s : SubList) (p : List String) (a : Nat),
    (p, a) ∈ collectSubs s ↔ PathS s p a
  | .nil, p, a => by
    constructor
    · intro h
      exact absurd h (List.not_mem_nil _)
    · intro h
      cases h
  | .cons name o rest, p, a => by
    simp only [collectSubs]
    rw [List.mem_append]
    constructor
    · rintro (hl | hr)
      · obtain ⟨kv, hkv, heq⟩ := List.mem_map.mp hl
        cases heq
        exact PathS.head ((mem_collectObj o kv.1 kv.2).mp (by simpa using hkv))
      · exact PathS.tail ((mem_collectSubs rest p a).mp hr)
    · intro h
      cases h with
      | head hpv =>
        exact Or.inl (List.mem_map.mpr
          ⟨_, (mem_collectObj o _ a).mpr hpv, rfl⟩)
      | tail hps => exact Or.inr ((mem_collectSubs rest p a).mpr hps)

end

/-- The example network of the notebook: a `Network` whose member named `E` is
a LIF neuron group with variables `V` and `spike` (array ids 1 and 2). -/
def exampleNet : Obj :=
  .mk [] (.cons "E" (.mk [("V", 1), ("spike", 2)] .nil) .nil)

/-- C3: the keys under which `save_states` stores the variable arrays are the
dotted relative-path names derived from the nested object attribute names; in
particular a `Network` whose member named `E` is a LIF produces the keys
`E.V` and `E.spike`. -/
theorem save_keys_dotted :
    (∀ (o : Obj) (k : String) (a : Nat),
      (k, a) ∈ saveKeys o ↔
        ∃ p, PathV o p a ∧ k = String.intercalate dotSep p) ∧
    saveKeys exampleNet = [("E.V", 1), ("E.spike", 2)] := by
  constructor
  · intro o k a
    unfold saveKeys
    rw [List.mem_map]
    constructor
    · rintro ⟨kv, hkv, heq⟩
      cases heq
      exact ⟨kv.1, (mem_collectObj o kv.1 kv.2).mp (by simpa using hkv), rfl⟩
    · rintro ⟨p, hpv, rfl⟩
      exact ⟨(p, a), (mem_collectObj o p a).mpr hpv, rfl⟩
  · rfl

/-- Modelled from the spec: JIT compilation is ahead-of-use compilation of
numerical code to native execution via an external compiler substrate; it
changes only the execution speed, so `bm.jit f` denotes the same function as
`f`. -/
def jit {α β : Type} (f : α → β) : α → β := f

/-- The `gelu` function of the notebook:
`cdf = 0.5 * (1 + tanh(sqrt(2/pi) * (x + 0.044715 * x^3))); y = x * cdf`.
The transcendental `tanh` and the constant `sqrt(2/pi)`, computed by the
external math library, are parameters. -/
def gelu (tanhFn : ℚ → ℚ) (sqrtTwoDivPi : ℚ) (x : ℚ) : ℚ :=
  let cdf := 1 / 2 * (1 + tanhFn (sqrtTwoDivPi * (x + 44715 / 1000000 * x ^ 3)))
  x * cdf

/-- The notebook's `gelu_jit = bm.jit(gelu)`. -/
def gelu_jit (tanhFn : ℚ → ℚ) (sqrtTwoDivPi : ℚ) : ℚ → ℚ :=
  jit (gelu tanhFn sqrtTwoDivPi)

/-- C5: for every input `x`, the JIT-compiled `bm.jit(gelu)` returns the same
value as the uncompiled `gelu`; JIT compilation changes only execution
speed. -/
theorem jit_gelu_eq_gelu :
    ∀ (tanhFn : ℚ → ℚ) (s : ℚ),
      gelu_jit tanhFn s = gelu tanhFn s ∧
      ∀ x, gelu_jit tanhFn s x = gelu tanhFn s x :=
  fun _ _ => ⟨rfl, fun _ => rfl⟩

/-- The call of the notebook's class `F`: `a` and `b` are `TrainVar`s holding
one-element arrays and `c` is a scalar; the call computes
`mean(a * b * 2 + c)`, and the mean of a one-element array is its entry. -/
def F_call (a b c : ℝ) : ℝ := a * b * 2 + c

theorem F_call_deriv_left (u v w : ℝ) :
    HasDerivAt (fun x => F_call x u v) (2 * u) w := by
  have h0 : (fun x : ℝ => F_call x u v) = fun x : ℝ => x * (u * 2) + v := by
    funext x
    unfold F_call
    ring
  rw [h0]
  have h1 := (hasDerivAt_id w).mul_const (u * 2)
  have h2 := h1.add_const v
  have h3 : 1 * (u * 2) = 2 * u := by ring
  rw [h3] at h2
  simpa using h2

theorem F_call_deriv_right (u v w : ℝ) :
    HasDerivAt (fun y => F_call u y v) (2 * u) w := by
  have h0 : (fun y : ℝ => F_call u y v) = fun y : ℝ => y * (u * 2) + v := by
    funext y
    unfold F_call
    ring
  rw [h0]
  have h1 := (hasDerivAt_id w).mul_const (u * 2)
  have h2 := h1.add_const v
  have h3 : 1 * (u * 2) = 2 * u := by ring
  rw [h3] at h2
  simpa using h2

/-- C6: the gradient of `f(c) = mean(a * b * 2 + c)` with respect to the
`TrainVar` `a` is `2 * b` and with respect to `b` is `2 * a`; at the initial
values `a = b = 1` both gradients equal 2, as returned by
`bm.grad(f, grad_vars=f.train_vars())` (autograd is external; the gradient is
modelled by the mathematical derivative). -/
theorem grad_F_trainvars (a b c : ℝ) :
    HasDerivAt (fun x => F_call x b c) (2 * b) a ∧
    HasDerivAt (fun y => F_call a y c) (2 * a) b ∧
    HasDerivAt (fun x => F_call x 1 10) 2 1 ∧
    HasDerivAt (fun y => F_call 1 y 10) 2 1 := by
  refine ⟨F_call_deriv_left b c a, F_call_deriv_right a c b, ?_, ?_⟩
  · simpa using F_call_deriv_left 1 10 1
  · simpa using F_call_deriv_right 1 10 1

/-- Modelled from the spec: a `Variable` is a named, mutable array wrapper;
the in-place item assignment `v[i] = a` is modelled by the functional update
of index `i`. -/
def varSetItem (v : List ℤ) (i : Nat) (a : ℤ) : List ℤ := v.set i a

/-- C7: after the in-place assignment `v[i] = a` with `i` a valid index,
element `i` equals `a`, every other element is unchanged, and the length is
preserved. -/
theorem setitem_frame (v : List ℤ) (i : Nat) (a : ℤ) (hi : i < v.length) :
    (varSetItem v i a).getD i 0 = a ∧
    (∀ j, j ≠ i → (varSetItem v i a).getD j 0 = v.getD j 0) ∧
    (varSetItem v i a).length = v.length := by
  refine ⟨?_, ?_, ?_⟩
  · unfold varSetItem
    rw [List.getD_eq_getElem?_getD, List.getElem?_set_self hi]
    rfl
  · intro j hj
    unfold varSetItem
    rw [List.getD_eq_getElem?_getD, List.getD_eq_getElem?_getD,
      List.getElem?_set_ne (fun h => hj h.symm)]
  · unfold varSetItem
    rw [List.length_set]

/-- The notebook's `bm.arange(10)`. -/
def arangeTen : List ℤ := [0, 1, 2, 3, 4, 5, 6, 7, 8, 9]

theorem setitem_frame_witness :
    (0 < arangeTen.length ∧ (varSetItem arangeTen 0 2).getD 0 0 = 2) ∧
    varSetItem arangeTen 0 2 = [2, 1, 2, 3, 4, 5, 6, 7, 8, 9] :=
  ⟨⟨by decide, (setitem_frame arangeTen 0 2 (by decide)).1⟩, by decide⟩

/-- The `Dropout` layer of the notebook: `prob` is the keep probability; the
random state is external, so the Bernoulli keep mask drawn from it is a
parameter of `update`. -/
structure Dropout where
  prob : ℚ

/-- The notebook's `Dropout.update`: if `kwargs.get('train', True)` then
`bm.where(keep_mask, x / self.prob, 0.)` else `x`.  The `train` keyword is
`none` when absent. -/
def Dropout.update (self : Dropout) (keepMask : List Bool) (x : List ℚ)
    (train : Option Bool) : List ℚ :=
  if train.getD true then
    List.zipWith (fun keep xi => if keep then xi / self.prob else 0) keepMask x
  else x

/-- C9: `Dropout.update` with `train=False` returns its input unchanged, and
an absent `train` keyword defaults to true, taking the dropout branch
`where(keep_mask, x / prob, 0)`. -/
theorem dropout_train_flag (self : Dropout) (keepMask : List Bool)
    (x : List ℚ) :
    Dropout.update self keepMask x (some false) = x ∧
    Dropout.update self keepMask x none
      = List.zipWith (fun keep xi => if keep then xi / self.prob else 0)
          keepMask x ∧
    Dropout.update self keepMask x none
      = Dropout.update self keepMask x (some true) :=
  ⟨rfl, rfl, rfl⟩

/-- The entries of one weight-matrix row with their positions: row index `i`,
column indices counting from `j0`. -/
def rowPairs (i : Nat) : Nat → List ℚ → List (Nat × Nat × ℚ)
  | _, [] => []
  | j0, x :: xs => (i, j0, x) :: rowPairs i (j0 + 1) xs

/-- All weight-matrix entries with their positions, rows counting from `i0`,
in row-major order. -/
def matPairs : Nat → List (List ℚ) → List (Nat × Nat × ℚ)
  | _, [] => []
  | i0, row :: rest => rowPairs i0 0 row ++ matPairs (i0 + 1) rest

/-- Modelled from the spec: `bp.conn.MatConn(W)` builds one synaptic
connection per non-zero element of `W`; the pairs `(pre_id, post_id)` are the
row and column indices of those elements, in row-major order. -/
def matConnIds (w : List (List ℚ)) : List (Nat × Nat) :=
  ((matPairs 0 w).filter (fun t => t.2.2 != 0)).map (fun t => (t.1, t.2.1))

/-- Matrix indexing `w[i, j]` (0 outside the matrix). -/
def entry (w : List (List ℚ)) (i j : Nat) : ℚ := (w.getD i []).getD j 0

/-- The non-zero entries of the matrix in row-major order. -/
def nonzerosRowMajor (w : List (List ℚ)) : List ℚ :=
  w.flatten.filter (fun x => x != 0)

theorem rowPairs_filter_map (w : List (List ℚ)) (i : Nat) :
    ∀ (row : List ℚ) (j0 : Nat),
      (∀ k, (w.getD i []).getD (j0 + k) 0 = row.getD k 0) →
      ((rowPairs i j0 row).filter (fun t => t.2.2 != 0)).map
          (fun t => entry w t.1 t.2.1)
        = row.filter (fun x => x != 0) := by
  intro row
  induction row with
  | nil => intro j0 _; rfl
  | cons x xs ih =>
    intro j0 hrow
    have hx : entry w i j0 = x := by
      have h0 := hrow 0
      rw [Nat.add_zero] at h0
      exact h0
    have hnext : ∀ k, (w.getD i []).getD (j0 + 1 + k) 0 = xs.getD k 0 := by
      intro k
      have hk := hrow (k + 1)
      have harith : j0 + (k + 1) = j0 + 1 + k := by omega
      rw [harith, List.getD_cons_succ] at hk
      exact hk
    rw [rowPairs, List.filter_cons, List.filter_cons]
    cases hx0 : (x != (0 : ℚ)) with
    | true =>
      simp only [hx0, if_true, List.map_cons]
      rw [hx, ih (j0 + 1) hnext]
    | false =>
      simp only [hx0, Bool.false_eq_true, if_false]
      exact ih (j0 + 1) hnext

theorem matPairs_filter_map (w : List (List ℚ)) :
    ∀ (rows : List (List ℚ)) (i0 : Nat),
      (∀ k, w.getD (i0 + k) [] = rows.getD k []) →
      ((matPairs i0 rows).filter (fun t => t.2.2 != 0)).map
          (fun t => entry w t.1 t.2.1)
        = nonzerosRowMajor rows := by
  intro rows
  induction rows with
  | nil => intro i0 _; rfl
  | cons row rest ih =>
    intro i0 hrows
    have hrow0 : w.getD i0 [] = row := by
      have h0 := hrows 0
      rw [Nat.add_zero] at h0
      exact h0
    have hnext : ∀ k, w.getD (i0 + 1 + k) [] = rest.getD k [] := by
      intro k
      have hk := hrows (k + 1)
      have harith : i0 + (k + 1) = i0 + 1 + k := by omega
      rw [harith, List.getD_cons_succ] at hk
      exact hk
    have hhead : ∀ k, (w.getD i0 []).getD (0 + k) 0 = row.getD k 0 := by
      intro k
      rw [hrow0, Nat.zero_add]
    unfold nonzerosRowMajor
    rw [matPairs, List.filter_append, List.map_append, List.flatten_cons,
      List.filter_append, rowPairs_filter_map w i0 row 0 hhead]
    have htail := ih (i0 + 1) hnext
    unfold nonzerosRowMajor at htail
    rw [htail]

/-- The weight matrix of the notebook,
`[[1., 1.5, 0., 0.5], [0., 2.5, 0., 0.], [2., 0., 3., 0.]]`. -/
def exampleW : List (List ℚ) :=
  [[1, 3 / 2, 0, 1 / 2], [0, 5 / 2, 0, 0], [2, 0, 3, 0]]

/-- C10: indexing the weight matrix `W` with the `pre_ids` and `post_ids` of
`bp.conn.MatConn(W)` yields exactly the non-zero entries of `W` in row-major
order, one entry per synaptic connection; the notebook's example matrix gives
the weight vector `[1., 1.5, 0.5, 2.5, 2., 3.]`. -/
theorem matconn_weight_vector :
    (∀ w : List (List ℚ),
      (matConnIds w).map (fun p => entry w p.1 p.2) = nonzerosRowMajor w) ∧
    matConnIds exampleW = [(0, 0), (0, 1), (0, 3), (1, 1), (2, 0), (2, 2)] ∧
    (matConnIds exampleW).map (fun p => entry exampleW p.1 p.2)
      = [1, 3 / 2, 1 / 2, 5 / 2, 2, 3] := by
  have hgen : ∀ w : List (List ℚ),
      (matConnIds w).map (fun p => entry w p.1 p.2) = nonzerosRowMajor w := by
    intro w
    unfold matConnIds
    rw [List.map_map]
    exact matPairs_filter_map w w 0 (fun k => by rw [Nat.zero_add])
  refine ⟨hgen, ?_, ?_⟩
  · norm_num [matConnIds, matPairs, rowPairs, exampleW, List.filter_cons]
  · rw [hgen exampleW]
    norm_num [nonzerosRowMajor, exampleW, List.filter_cons]

end BrainPy
